import Mathlib

set_option maxRecDepth 4000

/-!
Verification of the waste-credit ledger specification and the SDBMS
dashboard (`app.py`).

The ledger core (blocks, canonical hashing, grant/redeem, chain
verification) is modelled from the specification: the repository snapshot
under verification contains only the student-dashboard script, while the
ledger variants it describes are absent, so every ledger definition below
is a faithful transcription of the spec's words.  The password-hashing
and enrollment definitions are shallow embeddings of the corresponding
functions in `app.py`.

Machine words are `Nat` with explicit reduction modulo `2 ^ 32`; byte
strings are `List Nat` of values below 256.
-/

/-! ## SHA-256 over byte lists -/

/-- Right rotation of a 32-bit word (input assumed below `2 ^ 32`). -/
def rotr (n x : Nat) : Nat :=
  x / 2 ^ n + x % 2 ^ n * 2 ^ (32 - n)

/-- SHA-256 `Ch` bitwise choice function. -/
def shaCh (x y z : Nat) : Nat :=
  (x &&& y) ^^^ ((x ^^^ 4294967295) &&& z)

/-- SHA-256 `Maj` bitwise majority function. -/
def shaMaj (x y z : Nat) : Nat :=
  (x &&& y) ^^^ (x &&& z) ^^^ (y &&& z)

/-- SHA-256 big sigma-0. -/
def bsig0 (x : Nat) : Nat := rotr 2 x ^^^ rotr 13 x ^^^ rotr 22 x

/-- SHA-256 big sigma-1. -/
def bsig1 (x : Nat) : Nat := rotr 6 x ^^^ rotr 11 x ^^^ rotr 25 x

/-- SHA-256 small sigma-0. -/
def ssig0 (x : Nat) : Nat := rotr 7 x ^^^ rotr 18 x ^^^ x >>> 3

/-- SHA-256 small sigma-1. -/
def ssig1 (x : Nat) : Nat := rotr 17 x ^^^ rotr 19 x ^^^ x >>> 10

/-- The 64 SHA-256 round constants. -/
def shaK : List Nat :=
  [1116352408, 1899447441, 3049323471, 3921009573, 961987163, 1508970993,
   2453635748, 2870763221, 3624381080, 310598401, 607225278, 1426881987,
   1925078388, 2162078206, 2614888103, 3248222580, 3835390401, 4022224774,
   264347078, 604807628, 770255983, 1249150122, 1555081692, 1996064986,
   2554220882, 2821834349, 2952996808, 3210313671, 3336571891, 3584528711,
   113926993, 338241895, 666307205, 773529912, 1294757372, 1396182291,
   1695183700, 1986661051, 2177026350, 2456956037, 2730485921, 2820302411,
   3259730800, 3345764771, 3516065817, 3600352804, 4094571909, 275423344,
   430227734, 506948616, 659060556, 883997877, 958139571, 1322822218,
   1537002063, 1747873779, 1955562222, 2024104815, 2227730452, 2361852424,
   2428436474, 2756734187, 3204031479, 3329325298]

/-- The eight SHA-256 working variables. -/
structure ShaState where
  a : Nat
  b : Nat
  c : Nat
  d : Nat
  e : Nat
  f : Nat
  g : Nat
  hh : Nat
deriving DecidableEq

/-- SHA-256 initial hash value. -/
def shaInit : ShaState :=
  ⟨1779033703, 3144134277, 1013904242, 2773480762,
   1359893119, 2600822924, 528734635, 1541459225⟩

/-- One SHA-256 round, consuming a schedule word paired with its constant. -/
def shaStep (s : ShaState) (wk : Nat × Nat) : ShaState :=
  let t1 := (s.hh + bsig1 s.e + shaCh s.e s.f s.g + wk.1 + wk.2) % 4294967296
  let t2 := (bsig0 s.a + shaMaj s.a s.b s.c) % 4294967296
  { a := (t1 + t2) % 4294967296, b := s.a, c := s.b, d := s.c,
    e := (s.d + t1) % 4294967296, f := s.e, g := s.f, hh := s.g }

/-- The first 16 message-schedule words of a 64-byte block (big-endian). -/
def words16 (block : List Nat) : List Nat :=
  (List.range 16).map fun i =>
    block.getD (4 * i) 0 * 16777216 + block.getD (4 * i + 1) 0 * 65536 +
      block.getD (4 * i + 2) 0 * 256 + block.getD (4 * i + 3) 0

/-- The next message-schedule word extending the given prefix of the schedule. -/
def nextW (w : List Nat) : Nat :=
  (ssig1 (w.getD (w.length - 2) 0) + w.getD (w.length - 7) 0 +
    ssig0 (w.getD (w.length - 15) 0) + w.getD (w.length - 16) 0) % 4294967296

/-- Extend the message schedule by `n` further words. -/
def extendW : List Nat → Nat → List Nat
  | w, 0 => w
  | w, n + 1 => extendW (w ++ [nextW w]) n

/-- SHA-256 compression of one 64-byte block into the chaining state. -/
def compressBlock (s : ShaState) (block : List Nat) : ShaState :=
  let w := extendW (words16 block) 48
  let t := List.foldl shaStep s (w.zip shaK)
  { a := (s.a + t.a) % 4294967296, b := (s.b + t.b) % 4294967296,
    c := (s.c + t.c) % 4294967296, d := (s.d + t.d) % 4294967296,
    e := (s.e + t.e) % 4294967296, f := (s.f + t.f) % 4294967296,
    g := (s.g + t.g) % 4294967296, hh := (s.hh + t.hh) % 4294967296 }

/-- The message length in bits as eight big-endian bytes. -/
def lenBytes (n : Nat) : List Nat :=
  [n / 2 ^ 56 % 256, n / 2 ^ 48 % 256, n / 2 ^ 40 % 256, n / 2 ^ 32 % 256,
   n / 2 ^ 24 % 256, n / 2 ^ 16 % 256, n / 2 ^ 8 % 256, n % 256]

/-- SHA-256 padding: a 0x80 byte, zeros to 56 mod 64, then the bit length. -/
def padMsg (msg : List Nat) : List Nat :=
  msg ++ 128 :: (List.replicate ((119 - msg.length % 64) % 64) 0 ++ lenBytes (8 * msg.length))

/-- Split a byte list into 64-byte blocks (fuel-driven structural recursion;
the fuel is at least the list length, so it never runs out). -/
def toBlocksAux : Nat → List Nat → List (List Nat)
  | _, [] => []
  | 0, _ => []
  | fuel + 1, l => l.take 64 :: toBlocksAux fuel (l.drop 64)

/-- Split a byte list into 64-byte blocks. -/
def toBlocks (l : List Nat) : List (List Nat) :=
  toBlocksAux l.length l

/-- The eight 32-bit words of the SHA-256 digest of a byte list. -/
def sha256Words (msg : List Nat) : List Nat :=
  let s := List.foldl compressBlock shaInit (toBlocks (padMsg msg))
  [s.a, s.b, s.c, s.d, s.e, s.f, s.g, s.hh]

/-- A 32-bit word as four big-endian bytes. -/
def wordBytes (w : Nat) : List Nat :=
  [w / 16777216 % 256, w / 65536 % 256, w / 256 % 256, w % 256]

/-- The SHA-256 digest of a byte list, as 32 bytes. -/
def sha256Bytes (msg : List Nat) : List Nat :=
  (sha256Words msg).flatMap wordBytes

/-- The lowercase hexadecimal character for a digit value below 16. -/
def hexChar (d : Nat) : Char :=
  Char.ofNat (if d < 10 then 48 + d else 87 + d)

/-- A number as `k` lowercase hex characters, most significant first. -/
def toHexFixed (k n : Nat) : List Char :=
  (List.range k).reverse.map fun i => hexChar (n / 16 ^ i % 16)

/-- The UTF-8 encoding of one character, as bytes. -/
def utf8Char (c : Char) : List Nat :=
  let n := c.toNat
  if n < 128 then [n]
  else if n < 2048 then [192 + n / 64, 128 + n % 64]
  else if n < 65536 then [224 + n / 4096, 128 + n / 64 % 64, 128 + n % 64]
  else [240 + n / 262144, 128 + n / 4096 % 64, 128 + n / 64 % 64, 128 + n % 64]

/-- The UTF-8 encoding of a string, as bytes. -/
def strBytes (s : String) : List Nat :=
  s.data.flatMap utf8Char

/-- The SHA-256 digest of the UTF-8 bytes of a string, as a lowercase
hexadecimal string. -/
def sha256Hex (s : String) : String :=
  String.mk ((sha256Words (strBytes s)).flatMap (toHexFixed 8))

example : sha256Hex "abc" = "ba7816bf8f01cfea414140de5dae2223b00361a396177a9cb410ff61f20015ad" := by
  decide

/-! ## The ledger core

Modelled from the spec: the ledger scripts themselves are not part of the
verified snapshot, so the block store, canonical hashing rule, account
service and chain verification below transcribe §3–§4 of the
specification. -/

/-- Modelled from the spec: one immutable ledger block (§3). -/
structure Block where
  sequence_index : Nat
  timestamp : Nat
  account_id : String
  action_label : String
  delta : Int
  previous_hash : String
  hash : String
deriving DecidableEq, Inhabited

/-- Modelled from the spec: the deterministic key-ordered encoding of all
block fields except `hash` (keys sorted lexicographically, no insignificant
whitespace, integers as decimal, the timestamp as a fixed-format string). -/
def blockEncode (b : Block) : String :=
  "account_id=" ++ b.account_id ++ "|action_label=" ++ b.action_label ++
    "|delta=" ++ toString b.delta ++ "|previous_hash=" ++ b.previous_hash ++
    "|sequence_index=" ++ toString b.sequence_index ++ "|timestamp=" ++ toString b.timestamp

/-- Modelled from the spec: the canonical hashing rule — the lowercase-hex
SHA-256 digest of the UTF-8 bytes of the canonical encoding of every block
field except `hash` itself. -/
def computeHash (b : Block) : String :=
  sha256Hex (blockEncode b)

/-- Modelled from the spec: the genesis sentinel used as `previous_hash`
of the first block. -/
def genesisSentinel : String := "0"

/-- The `hash` of the last block of the chain, or the fallback value for an
empty chain (structural recursion carrying the fallback). -/
def lastHashD (p : String) : List Block → String
  | [] => p
  | b :: rest => lastHashD b.hash rest

/-- The `hash` of the last block of the chain, or the genesis sentinel for
an empty chain. -/
def lastHash (c : List Block) : String :=
  lastHashD genesisSentinel c

/-- Modelled from the spec: build the block appended by `Ledger.append` —
`previous_hash` from the current last block, `sequence_index` the current
chain length, `hash` by the canonical rule over all other fields. -/
def mkBlock (c : List Block) (account_id action_label : String) (delta : Int)
    (t : Nat) : Block :=
  let fields : Block :=
    { sequence_index := c.length, timestamp := t, account_id := account_id,
      action_label := action_label, delta := delta, previous_hash := lastHash c,
      hash := "" }
  { fields with hash := computeHash fields }

/-- Modelled from the spec: `Ledger.append` — grow the chain by one block
and return it. -/
def ledgerAppend (c : List Block) (account_id action_label : String) (delta : Int)
    (t : Nat) : Block × List Block :=
  let b := mkBlock c account_id action_label delta t
  (b, c ++ [b])

/-- Modelled from the spec: the Account Ledger Service state — the chain,
the cached per-account balances, and the per-account history lines. -/
structure AccountLedger where
  chain : List Block
  balances : List (String × Int)
  histories : List (String × List String)
deriving DecidableEq

/-- The empty initial service state. -/
def initLedger : AccountLedger := ⟨[], [], []⟩

/-- Balance lookup in the cached association list, 0 when absent. -/
def lookupBal : List (String × Int) → String → Int
  | [], _ => 0
  | p :: rest, id => if p.1 == id then p.2 else lookupBal rest id

/-- Modelled from the spec: `balance_of` — 0 for an unknown account,
mutating nothing. -/
def balance_of (st : AccountLedger) (id : String) : Int :=
  lookupBal st.balances id

/-- Update (or create) one entry of the balance cache. -/
def setBal : List (String × Int) → String → Int → List (String × Int)
  | [], id, v => [(id, v)]
  | p :: rest, id, v => if p.1 == id then (id, v) :: rest else p :: setBal rest id v

/-- Append one line to an account's history. -/
def addHist : List (String × List String) → String → String → List (String × List String)
  | [], id, line => [(id, [line])]
  | p :: rest, id, line =>
    if p.1 == id then (id, p.2 ++ [line]) :: rest else p :: addHist rest id line

/-- Modelled from the spec: the error taxonomy of §7 that the account
operations can surface. -/
inductive LedgerError
  | InsufficientBalance
  | InvalidInput
deriving DecidableEq

/-- Modelled from the spec: `grant(account_id, amount)` — requires
`amount > 0`, increases the balance by `amount`, appends one block with
`delta = +amount`, and appends a history line. -/
def grant (st : AccountLedger) (id : String) (amount : Int) (t : Nat) :
    Except LedgerError (Block × AccountLedger) :=
  if 0 < amount then
    let r := ledgerAppend st.chain id "segregation verified" amount t
    .ok (r.1,
      { chain := r.2,
        balances := setBal st.balances id (balance_of st id + amount),
        histories := addHist st.histories id ("credits granted: +" ++ toString amount) })
  else .error .InvalidInput

/-- Modelled from the spec: `redeem(account_id, cost, reward_label)` —
precondition `cost` positive and balance at least `cost`; on failure
`InsufficientBalance` with nothing changed, on success the balance drops
by `cost` and one block with `delta = -cost` is appended. -/
def redeem (st : AccountLedger) (id : String) (cost : Int) (reward_label : String)
    (t : Nat) : Except LedgerError (Block × AccountLedger) :=
  if 0 < cost ∧ cost ≤ balance_of st id then
    let r := ledgerAppend st.chain id ("redeemed: " ++ reward_label) (-cost) t
    .ok (r.1,
      { chain := r.2,
        balances := setBal st.balances id (balance_of st id - cost),
        histories := addHist st.histories id ("redeemed: " ++ reward_label) })
  else .error .InsufficientBalance

/-- One caller-visible account operation with its wall-clock instant. -/
inductive LedgerOp
  | grant (id : String) (amount : Int) (t : Nat)
  | redeem (id : String) (cost : Int) (reward_label : String) (t : Nat)
deriving DecidableEq

/-- Apply one operation; a rejected operation leaves the state unchanged. -/
def applyOp (st : AccountLedger) (op : LedgerOp) : AccountLedger :=
  match op with
  | .grant id amount t =>
    match grant st id amount t with
    | .ok r => r.2
    | .error _ => st
  | .redeem id cost lbl t =>
    match redeem st id cost lbl t with
    | .ok r => r.2
    | .error _ => st

/-- Run a sequence of operations from the empty initial state. -/
def runOps (ops : List LedgerOp) : AccountLedger :=
  List.foldl applyOp initLedger ops

/-- Modelled from the spec: the per-block check of `verify_chain` —
recompute the block's hash from its own fields and compare to the stored
`hash`, and (past the first block) compare `previous_hash` to the previous
block's stored `hash`. -/
def blockOk (b : Block) (prev : Option String) : Bool :=
  (computeHash b == b.hash) &&
    match prev with
    | none => true
    | some p => b.previous_hash == p

/-- Index of the first block failing its check, walking in index order;
`none` when every check passes. -/
def firstBad : List Block → Option String → Option Nat
  | [], _ => none
  | b :: rest, prev =>
    if blockOk b prev then (firstBad rest (some b.hash)).map (· + 1) else some 0

/-- Modelled from the spec: `verify_chain()` — valid, or invalid together
with the first failing index; an empty chain is valid; a pure read-only
function of the chain. -/
def verifyChain (c : List Block) : Bool × Option Nat :=
  match firstBad c none with
  | none => (true, none)
  | some i => (false, some i)

/-- Modelled from the spec: the leaderboard order — balance descending,
ties broken by account id ascending. -/
def lbLe (x y : String × Int) : Prop :=
  y.2 < x.2 ∨ (x.2 = y.2 ∧ x.1 ≤ y.1)

instance : DecidableRel lbLe := fun x y => by
  unfold lbLe; infer_instance

instance : IsTotal (String × Int) lbLe where
  total x y := by
    unfold lbLe
    rcases lt_trichotomy x.2 y.2 with h | h | h
    · exact Or.inr (Or.inl h)
    · rcases le_total x.1 y.1 with h1 | h1
      · exact Or.inl (Or.inr ⟨h, h1⟩)
      · exact Or.inr (Or.inr ⟨h.symm, h1⟩)
    · exact Or.inl (Or.inl h)

instance : IsTrans (String × Int) lbLe where
  trans x y z hxy hyz := by
    unfold lbLe at *
    rcases hxy with h1 | ⟨h1, h1s⟩ <;> rcases hyz with h2 | ⟨h2, h2s⟩
    · exact Or.inl (h2.trans h1)
    · exact Or.inl (h2 ▸ h1)
    · exact Or.inl (h1 ▸ h2)
    · exact Or.inr ⟨h1.trans h2, h1s.trans h2s⟩

/-- Modelled from the spec: `leaderboard()` — every known account paired
with its balance, sorted by balance descending with the account-id
tie-break. -/
def leaderboard (st : AccountLedger) : List (String × Int) :=
  List.insertionSort lbLe st.balances

/-! ## Chain linkage (C1) -/

/-- The chain-linkage predicate: each block's `previous_hash` equals the
expected predecessor hash, starting from `p`. -/
def ChainLinked : List Block → String → Prop
  | [], _ => True
  | b :: rest, p => b.previous_hash = p ∧ ChainLinked rest b.hash

/-- An invariant preserved by every operation holds after any run. -/
theorem foldl_applyOp_inv (P : AccountLedger → Prop)
    (hstep : ∀ st op, P st → P (applyOp st op)) :
    ∀ (ops : List LedgerOp) (st : AccountLedger), P st → P (List.foldl applyOp st ops)
  | [], _, h => h
  | op :: ops, st, h => foldl_applyOp_inv P hstep ops _ (hstep st op h)

/-- Appending a block whose `previous_hash` is the chain's last hash keeps
the chain linked. -/
theorem chainLinked_append : ∀ (c : List Block) (p : String) (b : Block),
    ChainLinked c p → b.previous_hash = lastHashD p c → ChainLinked (c ++ [b]) p
  | [], _, _, _, hb => ⟨hb, trivial⟩
  | x :: xs, _, b, h, hb => ⟨h.1, chainLinked_append xs x.hash b h.2 hb⟩

/-- Every single operation preserves chain linkage. -/
theorem applyOp_chainLinked (st : AccountLedger) (op : LedgerOp)
    (h : ChainLinked st.chain genesisSentinel) :
    ChainLinked (applyOp st op).chain genesisSentinel := by
  cases op with
  | grant id amount t =>
    by_cases hpos : 0 < amount
    · simp only [applyOp, grant, if_pos hpos, ledgerAppend]
      exact chainLinked_append _ _ _ h rfl
    · simp only [applyOp, grant, if_neg hpos]
      exact h
  | redeem id cost lbl t =>
    by_cases hc : 0 < cost ∧ cost ≤ balance_of st id
    · simp only [applyOp, redeem, if_pos hc, ledgerAppend]
      exact chainLinked_append _ _ _ h rfl
    · simp only [applyOp, redeem, if_neg hc]
      exact h

/-- After any run from the initial state, the chain is linked from the
genesis sentinel. -/
theorem runOps_chainLinked (ops : List LedgerOp) :
    ChainLinked (runOps ops).chain genesisSentinel :=
  foldl_applyOp_inv (fun st => ChainLinked st.chain genesisSentinel)
    applyOp_chainLinked ops initLedger trivial

/-- A linked chain satisfies the indexed linkage statement. -/
theorem chainLinked_getD : ∀ (c : List Block) (p : String), ChainLinked c p →
    (∀ i, i + 1 < c.length →
      (c.getD (i + 1) default).previous_hash = (c.getD i default).hash) ∧
    (0 < c.length → (c.getD 0 default).previous_hash = p) := by
  intro c
  induction c with
  | nil =>
    intro p _
    exact ⟨fun i hi => by simp at hi, fun h0 => by simp at h0⟩
  | cons b rest ih =>
    intro p h
    refine ⟨?_, fun _ => h.1⟩
    intro i hi
    cases i with
    | zero =>
      have hr : 0 < rest.length := by simp at hi; omega
      have := (ih b.hash h.2).2 hr
      simpa using this
    | succ j =>
      have hj : j + 1 < rest.length := by simp at hi; omega
      have := (ih b.hash h.2).1 j hj
      simpa using this

/-- C1. Chain linkage invariant: after any sequence of ledger operations,
every block at index `i > 0` has `previous_hash` equal to the stored hash
of the block at index `i - 1`, and the block at index 0 has `previous_hash`
equal to the genesis sentinel `"0"`. -/
theorem chain_linkage_invariant (ops : List LedgerOp) :
    (∀ i, i + 1 < (runOps ops).chain.length →
      ((runOps ops).chain.getD (i + 1) default).previous_hash =
        ((runOps ops).chain.getD i default).hash) ∧
    (0 < (runOps ops).chain.length →
      ((runOps ops).chain.getD 0 default).previous_hash = genesisSentinel) :=
  chainLinked_getD _ _ (runOps_chainLinked ops)

/-- Witness for C1 on a concrete two-block run. -/
theorem chain_linkage_invariant_witness :
    ((runOps [LedgerOp.grant "H1" 3 0, LedgerOp.grant "H1" 5 1]).chain.getD 1
        default).previous_hash =
      ((runOps [LedgerOp.grant "H1" 3 0, LedgerOp.grant "H1" 5 1]).chain.getD 0
        default).hash ∧
    ((runOps [LedgerOp.grant "H1" 3 0, LedgerOp.grant "H1" 5 1]).chain.getD 0
        default).previous_hash = genesisSentinel :=
  ⟨(chain_linkage_invariant [LedgerOp.grant "H1" 3 0, LedgerOp.grant "H1" 5 1]).1 0
      (by decide),
    (chain_linkage_invariant [LedgerOp.grant "H1" 3 0, LedgerOp.grant "H1" 5 1]).2
      (by decide)⟩

/-! ## Non-negative balances (C2) and balance conservation (C6) -/

/-- Looking up after a balance update: the updated id sees the new value,
every other id is untouched. -/
theorem lookupBal_setBal : ∀ (bal : List (String × Int)) (id : String) (v : Int)
    (id' : String),
    lookupBal (setBal bal id v) id' = if id = id' then v else lookupBal bal id'
  | [], id, v, id' => by
    by_cases h : id = id' <;> simp [lookupBal, setBal, h]
  | q :: rest, id, v, id' => by
    by_cases hq : q.1 = id
    · by_cases h : id = id'
      · subst h; simp [lookupBal, setBal, hq]
      · simp [lookupBal, setBal, hq, h]
    · by_cases hq' : q.1 = id'
      · have h : ¬id = id' := fun he => hq (he ▸ hq')
        have h2 : ¬id' = id := fun he => h he.symm
        simp [lookupBal, setBal, hq, hq', h, h2]
      · simp [lookupBal, setBal, hq, hq', lookupBal_setBal rest id v id']

/-- All cached balances are non-negative. -/
def NonNeg (st : AccountLedger) : Prop :=
  ∀ id, 0 ≤ balance_of st id

/-- Every single operation preserves non-negativity of all balances. -/
theorem applyOp_nonneg (st : AccountLedger) (op : LedgerOp) (h : NonNeg st) :
    NonNeg (applyOp st op) := by
  cases op with
  | grant id amount t =>
    by_cases hpos : 0 < amount
    · intro id'
      simp only [applyOp, grant, if_pos hpos]
      show 0 ≤ lookupBal (setBal st.balances id (balance_of st id + amount)) id'
      rw [lookupBal_setBal]
      split
      · have := h id; omega
      · exact h id'
    · simp only [applyOp, grant, if_neg hpos]; exact h
  | redeem id cost lbl t =>
    by_cases hc : 0 < cost ∧ cost ≤ balance_of st id
    · intro id'
      simp only [applyOp, redeem, if_pos hc]
      show 0 ≤ lookupBal (setBal st.balances id (balance_of st id - cost)) id'
      rw [lookupBal_setBal]
      split
      · omega
      · exact h id'
    · simp only [applyOp, redeem, if_neg hc]; exact h

/-- C2. Non-negative balance invariant: no sequence of grant/redeem calls
makes any balance negative, and a redeem whose cost exceeds the balance is
rejected leaving the whole state (hence the chain) unchanged. -/
theorem nonnegative_balance (ops : List LedgerOp) (id : String) (cost : Int)
    (lbl : String) (t : Nat) :
    0 ≤ balance_of (runOps ops) id ∧
    (balance_of (runOps ops) id < cost →
      applyOp (runOps ops) (LedgerOp.redeem id cost lbl t) = runOps ops) := by
  constructor
  · exact foldl_applyOp_inv NonNeg applyOp_nonneg ops initLedger
      (fun _ => le_refl 0) id
  · intro hlt
    have hc : ¬(0 < cost ∧ cost ≤ balance_of (runOps ops) id) := by
      rintro ⟨-, hle⟩; omega
    simp only [applyOp, redeem, if_neg hc]

/-- Witness for C2: a concrete balance stays non-negative and an
over-budget redeem is a no-op. -/
theorem nonnegative_balance_witness :
    0 ≤ balance_of (runOps [LedgerOp.grant "H1" 3 0]) "H1" ∧
    applyOp (runOps [LedgerOp.grant "H1" 3 0]) (LedgerOp.redeem "H1" 5 "X" 1) =
      runOps [LedgerOp.grant "H1" 3 0] :=
  ⟨(nonnegative_balance [LedgerOp.grant "H1" 3 0] "H1" 5 "X" 1).1,
    (nonnegative_balance [LedgerOp.grant "H1" 3 0] "H1" 5 "X" 1).2 (by decide)⟩

/-- The sum of `delta` over all blocks of the chain recorded for `id`. -/
def sumDeltas (c : List Block) (id : String) : Int :=
  ((c.filter fun b => b.account_id == id).map Block.delta).sum

/-- `sumDeltas` over a chain extended by one block. -/
theorem sumDeltas_append (c : List Block) (b : Block) (id : String) :
    sumDeltas (c ++ [b]) id =
      sumDeltas c id + if b.account_id = id then b.delta else 0 := by
  by_cases h : b.account_id = id <;>
    simp [sumDeltas, List.filter_append, h]

/-- The cached balances agree with the chain's per-account delta sums. -/
def Conserved (st : AccountLedger) : Prop :=
  ∀ id, balance_of st id = sumDeltas st.chain id

/-- Every single operation keeps cached balances equal to chain sums. -/
theorem applyOp_conserved (st : AccountLedger) (op : LedgerOp) (h : Conserved st) :
    Conserved (applyOp st op) := by
  cases op with
  | grant id amount t =>
    by_cases hpos : 0 < amount
    · intro id'
      simp only [applyOp, grant, if_pos hpos, ledgerAppend]
      show lookupBal (setBal st.balances id (balance_of st id + amount)) id' =
        sumDeltas (st.chain ++ [mkBlock st.chain id "segregation verified" amount t]) id'
      rw [lookupBal_setBal, sumDeltas_append]
      have hacc : (mkBlock st.chain id "segregation verified" amount t).account_id = id := rfl
      have hdel : (mkBlock st.chain id "segregation verified" amount t).delta = amount := rfl
      rw [hacc, hdel]
      by_cases hid : id = id'
      · subst hid; simp [h id]
      · simp [hid]; exact h id'
    · simp only [applyOp, grant, if_neg hpos]; exact h
  | redeem id cost lbl t =>
    by_cases hc : 0 < cost ∧ cost ≤ balance_of st id
    · intro id'
      simp only [applyOp, redeem, if_pos hc, ledgerAppend]
      show lookupBal (setBal st.balances id (balance_of st id - cost)) id' =
        sumDeltas (st.chain ++ [mkBlock st.chain id ("redeemed: " ++ lbl) (-cost) t]) id'
      rw [lookupBal_setBal, sumDeltas_append]
      have hacc : (mkBlock st.chain id ("redeemed: " ++ lbl) (-cost) t).account_id = id := rfl
      have hdel : (mkBlock st.chain id ("redeemed: " ++ lbl) (-cost) t).delta = -cost := rfl
      rw [hacc, hdel]
      by_cases hid : id = id'
      · subst hid; simp [h id]; omega
      · simp [hid]; exact h id'
    · simp only [applyOp, redeem, if_neg hc]; exact h

/-- C6. Balance conservation: after any run, every account's balance equals
the sum of `delta` over all chain blocks recorded for that account. -/
theorem balance_conservation (ops : List LedgerOp) (id : String) :
    balance_of (runOps ops) id = sumDeltas (runOps ops).chain id :=
  foldl_applyOp_inv Conserved applyOp_conserved ops initLedger
    (fun _ => rfl) id

/-! ## Redeem failure semantics and atomicity (C3) -/

/-- C3. `redeem` fails with `InsufficientBalance` exactly when the
precondition (`cost` positive and balance at least `cost`) is violated; on
failure no block is appended and the state (balance cache, histories,
chain) is unchanged; on success the balance drops by `cost` and exactly one
block with `delta = -cost` is appended. -/
theorem redeem_semantics (st : AccountLedger) (id : String) (cost : Int)
    (lbl : String) (t : Nat) :
    ((∃ r, redeem st id cost lbl t = Except.ok r) ↔
      0 < cost ∧ cost ≤ balance_of st id) ∧
    (∀ e, redeem st id cost lbl t = Except.error e →
      e = LedgerError.InsufficientBalance) ∧
    (¬(0 < cost ∧ cost ≤ balance_of st id) →
      redeem st id cost lbl t = Except.error LedgerError.InsufficientBalance ∧
      applyOp st (LedgerOp.redeem id cost lbl t) = st) ∧
    (∀ r : Block × AccountLedger, redeem st id cost lbl t = Except.ok r →
      balance_of r.2 id = balance_of st id - cost ∧
      r.2.chain = st.chain ++ [r.1] ∧
      r.1.delta = -cost ∧
      r.2.chain.length = st.chain.length + 1 ∧
      r.2.histories = addHist st.histories id ("redeemed: " ++ lbl)) := by
  by_cases hc : 0 < cost ∧ cost ≤ balance_of st id
  · refine ⟨⟨fun _ => hc, fun _ => ?_⟩, ?_, fun h => absurd hc h, ?_⟩
    · simp only [redeem, if_pos hc]
      exact ⟨_, rfl⟩
    · intro e he
      simp only [redeem, if_pos hc] at he
      exact Except.noConfusion he
    · intro r hok
      simp only [redeem, if_pos hc, ledgerAppend] at hok
      injection hok with h1
      subst h1
      refine ⟨?_, rfl, rfl, by simp, rfl⟩
      show lookupBal (setBal st.balances id (balance_of st id - cost)) id =
        balance_of st id - cost
      rw [lookupBal_setBal]
      simp
  · have herr : redeem st id cost lbl t = Except.error LedgerError.InsufficientBalance := by
      simp only [redeem, if_neg hc]
    refine ⟨⟨?_, fun h => absurd h hc⟩, ?_, fun _ => ⟨herr, ?_⟩, ?_⟩
    · rintro ⟨r, hr⟩
      rw [herr] at hr
      exact Except.noConfusion hr
    · intro e he
      rw [herr] at he
      injection he with h1
      exact h1.symm
    · simp only [applyOp, redeem, if_neg hc]
    · intro r hok
      rw [herr] at hok
      exact Except.noConfusion hok

/-- Witness for C3: on balance 8 a redeem of 8 succeeds; on balance 3 a
redeem of 5 fails with `InsufficientBalance` and changes nothing. -/
theorem redeem_semantics_witness :
    (∃ r, redeem (runOps [LedgerOp.grant "H1" 8 0]) "H1" 8 "X" 1 = Except.ok r) ∧
    (redeem (runOps [LedgerOp.grant "H1" 3 0]) "H1" 5 "Y" 1 =
        Except.error LedgerError.InsufficientBalance ∧
      applyOp (runOps [LedgerOp.grant "H1" 3 0]) (LedgerOp.redeem "H1" 5 "Y" 1) =
        runOps [LedgerOp.grant "H1" 3 0]) :=
  ⟨(redeem_semantics (runOps [LedgerOp.grant "H1" 8 0]) "H1" 8 "X" 1).1.2
      (by decide),
    (redeem_semantics (runOps [LedgerOp.grant "H1" 3 0]) "H1" 5 "Y" 1).2.2.1
      (by decide)⟩

/-! ## Canonical hash determinism (C4) -/

/-- The sixteen lowercase hexadecimal digit characters. -/
def lowercaseHexDigits : List Char :=
  "0123456789abcdef".data

/-- `hexChar` of a digit value is a lowercase hexadecimal character. -/
theorem hexChar_mem (d : Nat) (hd : d < 16) : hexChar d ∈ lowercaseHexDigits := by
  interval_cases d <;> decide

/-- `toHexFixed k` always produces `k` characters. -/
theorem toHexFixed_length (k n : Nat) : (toHexFixed k n).length = k := by
  simp [toHexFixed]

/-- Every character `toHexFixed` produces is a lowercase hex digit. -/
theorem toHexFixed_mem (k n : Nat) : ∀ ch ∈ toHexFixed k n, ch ∈ lowercaseHexDigits := by
  intro ch hch
  simp only [toHexFixed, List.mem_map, List.mem_reverse, List.mem_range] at hch
  obtain ⟨i, -, rfl⟩ := hch
  exact hexChar_mem _ (Nat.mod_lt _ (by norm_num))

/-- Characters of a word list rendered to hex are lowercase hex digits. -/
theorem mem_flatMap_hex (ws : List Nat) (ch : Char)
    (hch : ch ∈ ws.flatMap (toHexFixed 8)) : ch ∈ lowercaseHexDigits := by
  obtain ⟨w, -, hw⟩ := List.mem_flatMap.1 hch
  exact toHexFixed_mem _ _ _ hw

/-- A `sha256Hex` digest has exactly 64 characters. -/
theorem sha256Hex_length (s : String) : (sha256Hex s).length = 64 := by
  simp [sha256Hex, sha256Words, String.length, toHexFixed_length]

/-- Every character of a `sha256Hex` digest is a lowercase hex digit. -/
theorem sha256Hex_mem (s : String) :
    ∀ ch ∈ (sha256Hex s).data, ch ∈ lowercaseHexDigits := by
  intro ch hch
  exact mem_flatMap_hex _ _ hch

/-- C4. Canonical hash determinism: the block hash is the lowercase-hex
SHA-256 digest of the deterministic key-ordered encoding of all block
fields except `hash`; equal field values (timestamp included) always hash
to the identical 64-character lowercase digest, on any two runs of the
function. -/
theorem canonical_hash_determinism (b1 b2 : Block) :
    computeHash b1 = sha256Hex (blockEncode b1) ∧
    (b1.sequence_index = b2.sequence_index → b1.timestamp = b2.timestamp →
      b1.account_id = b2.account_id → b1.action_label = b2.action_label →
      b1.delta = b2.delta → b1.previous_hash = b2.previous_hash →
      computeHash b1 = computeHash b2) ∧
    (computeHash b1).length = 64 ∧
    ∀ ch ∈ (computeHash b1).data, ch ∈ lowercaseHexDigits := by
  refine ⟨rfl, ?_, sha256Hex_length _, sha256Hex_mem _⟩
  obtain ⟨s1, t1, a1, l1, d1, p1, x1⟩ := b1
  obtain ⟨s2, t2, a2, l2, d2, p2, x2⟩ := b2
  intro e1 e2 e3 e4 e5 e6
  dsimp only at e1 e2 e3 e4 e5 e6
  subst e1; subst e2; subst e3; subst e4; subst e5; subst e6
  rfl

/-- Witness for C4: two blocks equal except in the stored `hash` field
hash identically. -/
theorem canonical_hash_determinism_witness :
    computeHash ⟨0, 5, "H1", "L", 3, "0", ""⟩ =
      computeHash ⟨0, 5, "H1", "L", 3, "0", "zz"⟩ :=
  (canonical_hash_determinism ⟨0, 5, "H1", "L", 3, "0", ""⟩
      ⟨0, 5, "H1", "L", 3, "0", "zz"⟩).2.1 rfl rfl rfl rfl rfl rfl

/-! ## verify_chain correctness and tamper detection (C5) -/

/-- The check `verify_chain` performs at index `i` when the check of the
very first block uses `p` as expected predecessor: recompute the block's
hash and compare with the stored `hash`, and (past index 0) compare
`previous_hash` with the previous block's stored `hash`. -/
def chainCheck (c : List Block) (p : Option String) : Nat → Bool
  | 0 => blockOk (c.getD 0 default) p
  | j + 1 => blockOk (c.getD (j + 1) default) (some ((c.getD j default).hash))

/-- Equation for `chainCheck` at index 0. -/
theorem chainCheck_zero (c : List Block) (p : Option String) :
    chainCheck c p 0 = blockOk (c.getD 0 default) p := rfl

/-- Equation for `chainCheck` at a successor index. -/
theorem chainCheck_succ (c : List Block) (p : Option String) (j : Nat) :
    chainCheck c p (j + 1) =
      blockOk (c.getD (j + 1) default) (some ((c.getD j default).hash)) := rfl

/-- A passing check forces the stored hash to be the recomputed one. -/
theorem chainCheck_hash_eq (c : List Block) (p : Option String) (i : Nat)
    (h : chainCheck c p i = true) :
    computeHash (c.getD i default) = (c.getD i default).hash := by
  cases i with
  | zero =>
    rw [chainCheck_zero] at h
    unfold blockOk at h
    rw [Bool.and_eq_true] at h
    exact eq_of_beq h.1
  | succ j =>
    rw [chainCheck_succ] at h
    unfold blockOk at h
    rw [Bool.and_eq_true] at h
    exact eq_of_beq h.1

/-- Shifting `chainCheck` across the head of the chain. -/
theorem chainCheck_cons (b : Block) (rest : List Block) (p : Option String)
    (i : Nat) : chainCheck (b :: rest) p (i + 1) = chainCheck rest (some b.hash) i := by
  cases i <;> rfl

/-- `firstBad` returns `none` exactly when every per-index check passes. -/
theorem firstBad_eq_none : ∀ (c : List Block) (p : Option String),
    firstBad c p = none ↔ ∀ i, i < c.length → chainCheck c p i = true := by
  intro c
  induction c with
  | nil => intro p; simp [firstBad]
  | cons b rest ih =>
    intro p
    by_cases hb : blockOk b p = true
    · rw [firstBad, if_pos hb, Option.map_eq_none']
      rw [ih (some b.hash)]
      constructor
      · intro h i hi
        cases i with
        | zero => exact hb
        | succ j =>
          rw [chainCheck_cons]
          exact h j (by simp at hi; omega)
      · intro h i hi
        have h2 := h (i + 1) (by simp; omega)
        rwa [chainCheck_cons] at h2
    · rw [firstBad, if_neg hb]
      constructor
      · intro h; exact absurd h (by simp)
      · intro h
        exact absurd (h 0 (by simp)) hb

/-- `firstBad` returns `some i` exactly when `i` is the first failing
index. -/
theorem firstBad_eq_some : ∀ (c : List Block) (p : Option String) (i : Nat),
    firstBad c p = some i ↔
      i < c.length ∧ chainCheck c p i = false ∧
        ∀ j, j < i → chainCheck c p j = true := by
  intro c
  induction c with
  | nil => intro p i; simp [firstBad]
  | cons b rest ih =>
    intro p i
    by_cases hb : blockOk b p = true
    · rw [firstBad, if_pos hb]
      constructor
      · intro h
        obtain ⟨i', hi', rfl⟩ := Option.map_eq_some'.1 h
        obtain ⟨hlen, hf, hall⟩ := (ih (some b.hash) i').1 hi'
        refine ⟨by simp; omega, ?_, ?_⟩
        · rw [chainCheck_cons]; exact hf
        · intro j hj
          cases j with
          | zero => exact hb
          | succ k =>
            rw [chainCheck_cons]
            exact hall k (by omega)
      · rintro ⟨hlen, hf, hall⟩
        cases i with
        | zero =>
          have hbf : blockOk b p = false := hf
          rw [hbf] at hb
          exact Bool.noConfusion hb
        | succ k =>
          rw [Option.map_eq_some']
          refine ⟨k, ?_, rfl⟩
          apply (ih (some b.hash) k).2
          rw [chainCheck_cons] at hf
          refine ⟨by simp at hlen; omega, hf, ?_⟩
          intro j hj
          have h2 := hall (j + 1) (by omega)
          rwa [chainCheck_cons] at h2
    · rw [firstBad, if_neg hb]
      have hbf : blockOk b p = false := by
        revert hb; cases blockOk b p <;> simp
      constructor
      · intro h
        injection h with h
        subst h
        exact ⟨by simp, hbf, fun j hj => absurd hj (by omega)⟩
      · rintro ⟨hlen, hf, hall⟩
        cases i with
        | zero => rfl
        | succ k =>
          have h0 := hall 0 (by omega)
          have h0' : blockOk b p = true := h0
          rw [hbf] at h0'
          exact Bool.noConfusion h0'

/-- `verify_chain` says valid exactly when every per-index check passes. -/
theorem verifyChain_eq_true (c : List Block) :
    verifyChain c = (true, none) ↔
      ∀ i, i < c.length → chainCheck c none i = true := by
  rw [← firstBad_eq_none c none]
  unfold verifyChain
  cases hfb : firstBad c none with
  | none => simp
  | some k => simp

/-- `verify_chain` reports `(false, some i)` exactly when `i` is the first
failing index. -/
theorem verifyChain_eq_false (c : List Block) (i : Nat) :
    verifyChain c = (false, some i) ↔
      i < c.length ∧ chainCheck c none i = false ∧
        ∀ j, j < i → chainCheck c none j = true := by
  rw [← firstBad_eq_some c none i]
  unfold verifyChain
  cases hfb : firstBad c none with
  | none => simp
  | some k => simp

/-- Reading an untouched position of an updated chain. -/
theorem getD_set_ne (c : List Block) (i j : Nat) (b : Block) (h : i ≠ j) :
    (c.set i b).getD j default = c.getD j default := by
  rw [List.getD_eq_getD_get?, List.getD_eq_getD_get?, List.get?_set_ne _ _ h]

/-- Reading the updated position of an updated chain. -/
theorem getD_set_self (c : List Block) (i : Nat) (b : Block) (h : i < c.length) :
    (c.set i b).getD i default = b := by
  rw [List.getD_eq_getD_get?, List.get?_set_eq_of_lt _ h]
  rfl

/-- Checks strictly before the mutated index are unaffected. -/
theorem chainCheck_set_lt (c : List Block) (p : Option String) (i j : Nat)
    (b' : Block) (hj : j < i) :
    chainCheck (c.set i b') p j = chainCheck c p j := by
  cases j with
  | zero =>
    rw [chainCheck_zero, chainCheck_zero, getD_set_ne c i 0 b' (by omega)]
  | succ k =>
    rw [chainCheck_succ, chainCheck_succ, getD_set_ne c i (k + 1) b' (by omega),
      getD_set_ne c i k b' (by omega)]

/-- If index `i` of a fully valid chain is replaced so that its own check
now fails, `verify_chain` reports invalid exactly at index `i`. -/
theorem tamper_detected (c : List Block) (i : Nat) (b' : Block)
    (hvalid : verifyChain c = (true, none)) (hi : i < c.length)
    (hfail : chainCheck (c.set i b') none i = false) :
    verifyChain (c.set i b') = (false, some i) := by
  rw [verifyChain_eq_false]
  have hall := (verifyChain_eq_true c).1 hvalid
  refine ⟨by rw [List.length_set]; exact hi, hfail, ?_⟩
  intro j hj
  rw [chainCheck_set_lt c none i j b' hj]
  exact hall j (by omega)

/-- A mutation of a single named field of a block. -/
inductive FieldMut
  | seqIdx (n : Nat)
  | tstamp (n : Nat)
  | account (s : String)
  | action (s : String)
  | change (d : Int)
  | prevH (s : String)
  | hashH (s : String)
deriving DecidableEq

/-- Apply a single-field mutation to a block. -/
def mutate (b : Block) : FieldMut → Block
  | .seqIdx n => { b with sequence_index := n }
  | .tstamp n => { b with timestamp := n }
  | .account s => { b with account_id := s }
  | .action s => { b with action_label := s }
  | .change d => { b with delta := d }
  | .prevH s => { b with previous_hash := s }
  | .hashH s => { b with hash := s }

/-- Equality of all block fields except the stored `hash`. -/
def nonHashEq (x y : Block) : Prop :=
  x.sequence_index = y.sequence_index ∧ x.timestamp = y.timestamp ∧
    x.account_id = y.account_id ∧ x.action_label = y.action_label ∧
    x.delta = y.delta ∧ x.previous_hash = y.previous_hash

instance (x y : Block) : Decidable (nonHashEq x y) := by
  unfold nonHashEq; infer_instance

/-- Two blocks equal outside `hash` and at `hash` are equal. -/
theorem block_eq_of (x y : Block) (h6 : nonHashEq x y) (hh : x.hash = y.hash) :
    x = y := by
  obtain ⟨s1, t1, a1, l1, d1, p1, x1⟩ := x
  obtain ⟨s2, t2, a2, l2, d2, p2, x2⟩ := y
  obtain ⟨e1, e2, e3, e4, e5, e6⟩ := h6
  dsimp only at e1 e2 e3 e4 e5 e6 hh
  subst e1; subst e2; subst e3; subst e4; subst e5; subst e6; subst hh
  rfl

/-- A per-block check never passes when its recomputed digest disagrees
with its stored hash. -/
theorem blockOk_false_of (b' : Block) (prev : Option String)
    (h : computeHash b' ≠ b'.hash) : blockOk b' prev = false := by
  unfold blockOk
  simp [h]

/-- The check of a genuinely mutated block fails, for any expected
predecessor, as long as the mutation either changed the recomputed digest
or only touched the stored `hash`. -/
theorem blockOk_mutate_false (b : Block) (m : FieldMut) (prev : Option String)
    (hcb : computeHash b = b.hash)
    (hne : mutate b m ≠ b)
    (hav : computeHash (mutate b m) = computeHash b → nonHashEq (mutate b m) b) :
    blockOk (mutate b m) prev = false := by
  apply blockOk_false_of
  cases m with
  | hashH s =>
    intro hcontra
    apply hne
    apply block_eq_of
    · exact ⟨rfl, rfl, rfl, rfl, rfl, rfl⟩
    · exact hcontra.symm.trans hcb
  | seqIdx n =>
    intro hcontra
    exact hne (block_eq_of _ _ (hav (hcontra.trans hcb.symm)) rfl)
  | tstamp n =>
    intro hcontra
    exact hne (block_eq_of _ _ (hav (hcontra.trans hcb.symm)) rfl)
  | account s =>
    intro hcontra
    exact hne (block_eq_of _ _ (hav (hcontra.trans hcb.symm)) rfl)
  | action s =>
    intro hcontra
    exact hne (block_eq_of _ _ (hav (hcontra.trans hcb.symm)) rfl)
  | change d =>
    intro hcontra
    exact hne (block_eq_of _ _ (hav (hcontra.trans hcb.symm)) rfl)
  | prevH s =>
    intro hcontra
    exact hne (block_eq_of _ _ (hav (hcontra.trans hcb.symm)) rfl)

/-- C5. `verify_chain` walks blocks in index order recomputing each hash
and checking the `previous_hash` link, returns valid on the empty chain,
reports invalid exactly at the first failing index, and flags a mutation
of any single field of any stored block at that block's index (for a
non-hash field, under the avalanche hypothesis that the mutation changed
the recomputed digest). As a pure function it mutates no state. -/
theorem verify_chain_correct (c : List Block) (i : Nat) (m : FieldMut) :
    verifyChain [] = (true, none) ∧
    (verifyChain c = (true, none) ↔
      ∀ j, j < c.length → chainCheck c none j = true) ∧
    (∀ k, verifyChain c = (false, some k) ↔
      k < c.length ∧ chainCheck c none k = false ∧
        ∀ j, j < k → chainCheck c none j = true) ∧
    (verifyChain c = (true, none) → i < c.length →
      mutate (c.getD i default) m ≠ c.getD i default →
      (computeHash (mutate (c.getD i default) m) = computeHash (c.getD i default) →
        nonHashEq (mutate (c.getD i default) m) (c.getD i default)) →
      verifyChain (c.set i (mutate (c.getD i default) m)) = (false, some i)) := by
  refine ⟨rfl, verifyChain_eq_true c, fun k => verifyChain_eq_false c k, ?_⟩
  intro hvalid hi hne hav
  have hall := (verifyChain_eq_true c).1 hvalid
  have hcheck := hall i hi
  have hcb : computeHash (c.getD i default) = (c.getD i default).hash :=
    chainCheck_hash_eq c none i hcheck
  apply tamper_detected c i _ hvalid hi
  cases i with
  | zero =>
    rw [chainCheck_zero, getD_set_self c 0 _ hi]
    exact blockOk_mutate_false _ m none hcb hne hav
  | succ k =>
    rw [chainCheck_succ, getD_set_self c (k + 1) _ hi,
      getD_set_ne c (k + 1) k _ (by omega)]
    exact blockOk_mutate_false _ m _ hcb hne hav

/-- Witness for C5: on a concrete one-block chain, mutating the block's
`delta` makes `verify_chain` report invalid at index 0. -/
theorem verify_chain_correct_witness :
    verifyChain
        ((runOps [LedgerOp.grant "H1" 3 0]).chain.set 0
          (mutate ((runOps [LedgerOp.grant "H1" 3 0]).chain.getD 0 default)
            (FieldMut.change 7))) = (false, some 0) :=
  (verify_chain_correct (runOps [LedgerOp.grant "H1" 3 0]).chain 0
      (FieldMut.change 7)).2.2.2 (by decide) (by decide) (by decide) (by decide)

/-! ## Leaderboard order (C7) -/

/-- C7. The leaderboard pairs every known account with its balance (a
permutation of the balance cache), is sorted by balance descending with
the deterministic account-id tie-break, and on the concrete two-account
scenario (`H1` at 10, `H2` at 4) returns `[(H1, 10), (H2, 4)]`. -/
theorem leaderboard_order (st : AccountLedger) :
    (leaderboard st).Perm st.balances ∧
    List.Sorted lbLe (leaderboard st) ∧
    leaderboard (runOps [LedgerOp.grant "H1" 10 0, LedgerOp.grant "H2" 4 1]) =
      [("H1", 10), ("H2", 4)] :=
  ⟨List.perm_insertionSort lbLe st.balances,
    List.sorted_insertionSort lbLe st.balances,
    by decide⟩

/-! ## Password hashing (`hash_password` / `verify_password` in `app.py`,
C8 and C9) -/

/-- `binascii.hexlify`: each byte as two lowercase hex characters. -/
def hexlify : List Nat → List Char
  | [] => []
  | b :: rest => hexChar (b / 16) :: hexChar (b % 16) :: hexlify rest

/-- The value of one hexadecimal character (`binascii.unhexlify` accepts
both cases), `none` for a non-hex character. -/
def hexDigitVal (c : Char) : Option Nat :=
  if 48 ≤ c.toNat ∧ c.toNat ≤ 57 then some (c.toNat - 48)
  else if 97 ≤ c.toNat ∧ c.toNat ≤ 102 then some (c.toNat - 87)
  else if 65 ≤ c.toNat ∧ c.toNat ≤ 70 then some (c.toNat - 55)
  else none

/-- `binascii.unhexlify`: pairs of hex characters back to bytes, `none`
(the `binascii.Error` path) on odd length or a non-hex character. -/
def unhexlify : List Char → Option (List Nat)
  | [] => some []
  | [_] => none
  | c1 :: c2 :: rest =>
    match hexDigitVal c1, hexDigitVal c2, unhexlify rest with
    | some h, some l, some bs => some ((h * 16 + l) :: bs)
    | _, _, _ => none

/-- Whether a `$` occurs in the character list. -/
def hasDollar : List Char → Bool
  | [] => false
  | c :: rest => c = '$' || hasDollar rest

/-- Python's `stored.split("$")` destructured into exactly two parts:
`some` iff the string contains exactly one `$` (any other count raises
`ValueError`, caught by `verify_password`). -/
def splitDollar : List Char → Option (List Char × List Char)
  | [] => none
  | c :: rest =>
    if c = '$' then (if hasDollar rest then none else some ([], rest))
    else
      match splitDollar rest with
      | some r => some (c :: r.1, r.2)
      | none => none

/-- HMAC-SHA256 over byte lists (64-byte block size). -/
def hmacSha256 (key msg : List Nat) : List Nat :=
  let k0 := if 64 < key.length then sha256Bytes key else key
  let kp := k0 ++ List.replicate (64 - k0.length) 0
  sha256Bytes ((kp.map fun b => b ^^^ 92) ++
    sha256Bytes ((kp.map fun b => b ^^^ 54) ++ msg))

/-- The iterated `U` accumulation of PBKDF2 (remaining iterations paired
with the running xor). -/
def pbkdf2Loop (pw : List Nat) : List Nat → List Nat → Nat → List Nat
  | _, acc, 0 => acc
  | u, acc, n + 1 =>
    let u2 := hmacSha256 pw u
    pbkdf2Loop pw u2 (List.zipWith (fun a b => a ^^^ b) acc u2) n

/-- `hashlib.pbkdf2_hmac("sha256", pw, salt, iters)` with the default
32-byte output (a single PBKDF2 block, index 1). -/
def pbkdf2HmacSha256 (pw salt : List Nat) (iters : Nat) : List Nat :=
  match iters with
  | 0 => []
  | n + 1 =>
    let u1 := hmacSha256 pw (salt ++ [0, 0, 0, 1])
    pbkdf2Loop pw u1 u1 n

/-- `PBKDF2_ITER` from `app.py`. -/
def PBKDF2_ITER : Nat := 120000

/-- `hash_password` from `app.py`, with the randomly drawn
`secrets.token_bytes(16)` salt passed in explicitly: returns
`salt_hex$key_hex`. -/
def hash_password_salted (salt : List Nat) (password : String) : String :=
  String.mk (hexlify salt ++ '$' ::
    hexlify (pbkdf2HmacSha256 (strBytes password) salt PBKDF2_ITER))

/-- `verify_password` from `app.py`: split the stored string on `$`,
unhexlify both halves, re-derive the key and compare; any failure along
the way (the `except` clause) yields `False`. -/
def verify_password (stored provided : String) : Bool :=
  match splitDollar stored.data with
  | none => false
  | some r =>
    match unhexlify r.1, unhexlify r.2 with
    | some salt, some dk_stored =>
      pbkdf2HmacSha256 (strBytes provided) salt PBKDF2_ITER == dk_stored
    | _, _ => false

/-- Decoding a hex character produced by `hexChar` recovers the digit. -/
theorem hexDigitVal_hexChar (d : Nat) (hd : d < 16) :
    hexDigitVal (hexChar d) = some d := by
  interval_cases d <;> decide

/-- `hexChar` never produces the separator `$`. -/
theorem hexChar_ne_dollar (d : Nat) (hd : d < 16) : hexChar d ≠ '$' := by
  interval_cases d <;> decide

/-- No character of a hexlified byte list is `$`. -/
theorem hexlify_no_dollar : ∀ (bs : List Nat), (∀ b ∈ bs, b < 256) →
    ∀ ch ∈ hexlify bs, ch ≠ '$'
  | [], _, ch, hch => absurd hch (by simp [hexlify])
  | b :: rest, hb, ch, hch => by
    have hblt : b < 256 := hb b (by simp)
    rcases hch with _ | ⟨_, h⟩
    · exact hexChar_ne_dollar _ (by omega)
    · rcases h with _ | ⟨_, h2⟩
      · exact hexChar_ne_dollar _ (by omega)
      · exact hexlify_no_dollar rest (fun x hx => hb x (by simp [hx])) ch h2

/-- `unhexlify` inverts `hexlify` on genuine byte lists. -/
theorem unhexlify_hexlify : ∀ (bs : List Nat), (∀ b ∈ bs, b < 256) →
    unhexlify (hexlify bs) = some bs
  | [], _ => rfl
  | b :: rest, hb => by
    have hblt : b < 256 := hb b (by simp)
    show unhexlify (hexChar (b / 16) :: hexChar (b % 16) :: hexlify rest) = _
    unfold unhexlify
    rw [hexDigitVal_hexChar _ (by omega), hexDigitVal_hexChar _ (by omega),
      unhexlify_hexlify rest (fun x hx => hb x (by simp [hx]))]
    show some ((b / 16 * 16 + b % 16) :: rest) = some (b :: rest)
    have hbm : b / 16 * 16 + b % 16 = b := by omega
    rw [hbm]

/-- A dollar-free character list has `hasDollar = false`. -/
theorem hasDollar_eq_false : ∀ (l : List Char), (∀ ch ∈ l, ch ≠ '$') →
    hasDollar l = false
  | [], _ => rfl
  | c :: rest, h => by
    unfold hasDollar
    rw [hasDollar_eq_false rest (fun x hx => h x (by simp [hx]))]
    simp [h c (by simp)]

/-- Splitting `l1 ++ "$" ++ l2` recovers the two dollar-free halves. -/
theorem splitDollar_append : ∀ (l1 l2 : List Char), (∀ ch ∈ l1, ch ≠ '$') →
    (∀ ch ∈ l2, ch ≠ '$') →
    splitDollar (l1 ++ '$' :: l2) = some (l1, l2)
  | [], l2, _, h2 => by
    show splitDollar ('$' :: l2) = _
    unfold splitDollar
    rw [if_pos rfl, hasDollar_eq_false l2 h2]
    rfl
  | c :: rest, l2, h1, h2 => by
    have hc : ¬c = '$' := h1 c (by simp)
    show splitDollar (c :: (rest ++ '$' :: l2)) = _
    unfold splitDollar
    rw [if_neg hc, splitDollar_append rest l2 (fun x hx => h1 x (by simp [hx])) h2]

/-- Every SHA-256 digest byte is below 256. -/
theorem sha256Bytes_lt (msg : List Nat) : ∀ b ∈ sha256Bytes msg, b < 256 := by
  intro b hb
  obtain ⟨w, -, hw⟩ := List.mem_flatMap.1 hb
  simp only [wordBytes, List.mem_cons, List.not_mem_nil, or_false] at hw
  rcases hw with rfl | rfl | rfl | rfl <;> exact Nat.mod_lt _ (by norm_num)

/-- Xoring two byte lists pointwise stays below 256. -/
theorem zipWith_xor_lt : ∀ (xs ys : List Nat), (∀ x ∈ xs, x < 256) →
    (∀ y ∈ ys, y < 256) →
    ∀ z ∈ List.zipWith (fun a b => a ^^^ b) xs ys, z < 256
  | [], _, _, _, z, hz => absurd hz (by simp)
  | _ :: _, [], _, _, z, hz => absurd hz (by simp)
  | x :: xs, y :: ys, hx, hy, z, hz => by
    rcases hz with _ | ⟨_, h⟩
    · have hxb := hx x (by simp)
      have hyb := hy y (by simp)
      have hlt : x ^^^ y < 2 ^ 8 :=
        Nat.xor_lt_two_pow (by norm_num; omega) (by norm_num; omega)
      norm_num at hlt
      exact hlt
    · exact zipWith_xor_lt xs ys (fun a ha => hx a (by simp [ha]))
        (fun a ha => hy a (by simp [ha])) z h

/-- Every byte the PBKDF2 accumulation produces is below 256. -/
theorem pbkdf2Loop_lt (pw : List Nat) : ∀ (n : Nat) (u acc : List Nat),
    (∀ b ∈ acc, b < 256) → ∀ b ∈ pbkdf2Loop pw u acc n, b < 256
  | 0, _, _, hacc => hacc
  | n + 1, u, acc, hacc => by
    unfold pbkdf2Loop
    exact pbkdf2Loop_lt pw n _ _
      (zipWith_xor_lt _ _ hacc (sha256Bytes_lt _))

/-- Every byte of a PBKDF2-HMAC-SHA256 key is below 256. -/
theorem pbkdf2_lt (pw salt : List Nat) (iters : Nat) :
    ∀ b ∈ pbkdf2HmacSha256 pw salt iters, b < 256 := by
  cases iters with
  | zero => intro b hb; exact absurd hb (by simp [pbkdf2HmacSha256])
  | succ n =>
    unfold pbkdf2HmacSha256
    exact pbkdf2Loop_lt pw n _ _ (sha256Bytes_lt _)

/-- `verify_password` on a well-formed stored string reduces to comparing
the re-derived key with the stored one. -/
theorem verify_password_eq (stored provided : String) (s1 s2 : List Char)
    (bs1 bs2 : List Nat) (hsp : splitDollar stored.data = some (s1, s2))
    (h1 : unhexlify s1 = some bs1) (h2 : unhexlify s2 = some bs2) :
    verify_password stored provided =
      (pbkdf2HmacSha256 (strBytes provided) bs1 PBKDF2_ITER == bs2) := by
  unfold verify_password
  simp only [hsp, h1, h2]

/-- C8. Password round-trip: for every password and every salt byte string
drawn inside `hash_password`, verifying the password against the stored
`salt_hex$key_hex` string succeeds — `verify_password` recovers the salt,
re-derives the PBKDF2-HMAC-SHA256 key and finds it equal to the stored
key. -/
theorem password_roundtrip (salt : List (Fin 256)) (p : String) :
    verify_password (hash_password_salted (salt.map Fin.val) p) p = true := by
  have hsalt : ∀ b ∈ salt.map Fin.val, b < 256 := by
    intro b hb
    obtain ⟨f, -, rfl⟩ := List.mem_map.1 hb
    exact f.2
  have hdkb : ∀ b ∈ pbkdf2HmacSha256 (strBytes p) (salt.map Fin.val) PBKDF2_ITER,
      b < 256 := pbkdf2_lt _ _ _
  have hsplit : splitDollar (hash_password_salted (salt.map Fin.val) p).data =
      some (hexlify (salt.map Fin.val),
        hexlify (pbkdf2HmacSha256 (strBytes p) (salt.map Fin.val) PBKDF2_ITER)) :=
    splitDollar_append _ _ (hexlify_no_dollar _ hsalt) (hexlify_no_dollar _ hdkb)
  rw [verify_password_eq (hash_password_salted (salt.map Fin.val) p) p _ _
    (salt.map Fin.val)
    (pbkdf2HmacSha256 (strBytes p) (salt.map Fin.val) PBKDF2_ITER)
    hsplit (unhexlify_hexlify _ hsalt) (unhexlify_hexlify _ hdkb)]
  exact beq_self_eq_true _

/-- Whether a stored string has the `salt_hex$key_hex` shape
`verify_password` can process: exactly one `$`, both halves valid
hexadecimal of even length. -/
def storedWellFormed (stored : String) : Bool :=
  match splitDollar stored.data with
  | none => false
  | some r => (unhexlify r.1).isSome && (unhexlify r.2).isSome

/-- C9. `verify_password` totality: it is a total boolean function (the
`try/except` of the source is modelled by the `Option` paths), and on any
stored string that is not of the form `salt_hex$key_hex` with valid
hexadecimal halves it returns `False`. -/
theorem verify_password_total (stored provided : String)
    (h : storedWellFormed stored = false) :
    verify_password stored provided = false := by
  unfold storedWellFormed at h
  unfold verify_password
  cases hs : splitDollar stored.data with
  | none => rfl
  | some r =>
    rw [hs] at h
    dsimp only at h ⊢
    cases hu1 : unhexlify r.1 with
    | none => simp only [hu1]
    | some bs1 =>
      cases hu2 : unhexlify r.2 with
      | none => simp only [hu1, hu2]
      | some bs2 =>
        rw [hu1, hu2] at h
        simp at h

/-- Witness for C9: a stored string with one `$` but non-hex halves is
rejected. -/
theorem verify_password_total_witness :
    verify_password "zz$aa" "pw" = false :=
  verify_password_total "zz$aa" "pw" (by decide)

/-! ## Enrollment uniqueness (`enrollment_page` in `app.py`, C10) -/

/-- The `Enroll` button handler of `enrollment_page`, restricted to the
enrollments table projected to its `(student_id, course_code)` columns: if
both selections are truthy and a row with the pair already exists, warn
and change nothing, otherwise insert the new row. -/
def enroll (db : List (String × String)) (s c : String) : List (String × String) :=
  if s ≠ "" ∧ c ≠ "" then
    if 0 < db.countP (fun r => r.1 == s && r.2 == c) then db
    else db ++ [(s, c)]
  else db

/-- A sequence of `Enroll` requests applied in order. -/
def enrollRun (db : List (String × String)) (reqs : List (String × String)) :
    List (String × String) :=
  List.foldl (fun d r => enroll d r.1 r.2) db reqs

/-- One `Enroll` keeps the table duplicate-free. -/
theorem enroll_nodup (db : List (String × String)) (s c : String)
    (h : db.Nodup) : (enroll db s c).Nodup := by
  unfold enroll
  split
  · by_cases hcnt : 0 < db.countP (fun r => r.1 == s && r.2 == c)
    · rw [if_pos hcnt]; exact h
    · rw [if_neg hcnt]
      have hz : db.countP (fun r => r.1 == s && r.2 == c) = 0 := by omega
      have hall := List.countP_eq_zero.1 hz
      have hnm : (s, c) ∉ db := fun hm => by
        have := hall (s, c) hm
        simp at this
      rw [List.nodup_append]
      refine ⟨h, List.nodup_singleton _, ?_⟩
      intro a ha hb
      simp at hb
      subst hb
      exact hnm ha
  · exact h

/-- C10. No duplicate enrollments via the public `Enroll` action: from any
table with distinct `(student_id, course_code)` rows, `Enroll` inserts only
when no row with that pair exists, so every state reachable by `Enroll`
requests keeps at most one row per pair. -/
theorem enrollment_no_duplicates (db : List (String × String)) (s c : String)
    (reqs : List (String × String)) :
    ((s, c) ∈ db → enroll db s c = db) ∧
    (db.Nodup → (enroll db s c).Nodup) ∧
    (db.Nodup → (enrollRun db reqs).Nodup) := by
  refine ⟨?_, enroll_nodup db s c, ?_⟩
  · intro hm
    have hp : 0 < db.countP (fun r => r.1 == s && r.2 == c) := by
      by_contra h0
      have hz : db.countP (fun r => r.1 == s && r.2 == c) = 0 := by omega
      have := List.countP_eq_zero.1 hz (s, c) hm
      simp at this
    unfold enroll
    by_cases hg : s ≠ "" ∧ c ≠ ""
    · rw [if_pos hg, if_pos hp]
    · rw [if_neg hg]
  · induction reqs generalizing db with
    | nil => intro h; exact h
    | cons r rest ih =>
      intro h
      show (enrollRun (enroll db r.1 r.2) rest).Nodup
      exact ih _ (enroll_nodup db r.1 r.2 h)

/-- Witness for C10: a duplicate `Enroll` is a no-op and a concrete request
sequence keeps the table duplicate-free. -/
theorem enrollment_no_duplicates_witness :
    enroll [("S1001", "CS101")] "S1001" "CS101" = [("S1001", "CS101")] ∧
    (enrollRun [("S1001", "CS101")]
      [("S1001", "CS101"), ("S1002", "CS101")]).Nodup :=
  ⟨(enrollment_no_duplicates [("S1001", "CS101")] "S1001" "CS101" []).1
      (by decide),
    (enrollment_no_duplicates [("S1001", "CS101")] "S1001" "CS101"
        [("S1001", "CS101"), ("S1002", "CS101")]).2.2 (by decide)⟩
